import Mathlib

set_option maxRecDepth 100000

/-!
Verification development for `measurement_integration.py`, a script that
summarizes per-condition cell-measurement tables: it groups rows of a table
by key columns and computes mean / count / sample standard deviation /
standard error of the mean of a measurement column, with a lenient
column-name resolver and a matched-pair (day == condition) filtering path.

The embedding is shallow and executable:

* a pandas `DataFrame` is a `Table`: a header (list of column names) and a
  list of rows, each row a list of cell `Value`s (integer, rational, string,
  or missing/NaN);
* real-number arithmetic of the script is idealized as exact rational
  arithmetic; because the sample standard deviation and the SEM are square
  roots of rationals, aggregate records carry their squares (`stdSq`,
  `semSq`) as exact rationals, with `none` standing for pandas `NaN`
  (std = √stdSq and sem = √semSq, so definedness, zeroness and the
  relation sem = std / √n are faithfully represented on the squares);
* rational arithmetic is implemented through `mkRat` / `Rat.divInt` (which
  the kernel can evaluate) and proved equal to the field operations of `ℚ`
  by the `q*_eq` bridge lemmas below, so claim statements can use ordinary
  `+ - * /` while concrete runs evaluate by `decide`;
* `difflib.get_close_matches` (used by the resolver) is modelled by the
  Ratcliff–Obershelp similarity that `difflib.SequenceMatcher.ratio`
  computes: total size of the recursively-found longest matching blocks,
  doubled, divided by the total length (junk heuristics are off for the
  short strings involved here);
* fallible paths return explicit outcomes: `process_data` yields
  `Except AggErr AggResult` and its caller-visible behaviour is
  `RunOutcome` (`exit1` models `print` + `sys.exit(1)`), while
  `process_matching_day_condition` yields `MPOutcome` whose `returned`
  constructor carries the diagnostics printed and the table returned and
  whose `raised` constructor models a re-raised exception.
-/

/-- A cell of a table: an integer, a general numeric (float idealized as an
exact rational), a string, or a missing value (pandas `NaN`). -/
inductive Value : Type
  | int (n : Int)
  | num (q : ℚ)
  | str (s : String)
  | missing
deriving DecidableEq, Repr

/-- An in-memory table: the pandas `DataFrame` of the script.  `header` is
the column-name list, each row lists its cells in header order. -/
structure Table where
  header : List String
  rows : List (List Value)
deriving DecidableEq, Repr

/-- Index of a column name in a header (`len` when absent), modelling
column lookup in a `DataFrame`. -/
def colIdx (header : List String) (c : String) : Nat :=
  header.findIdx (fun h => h == c)

/-- Cell of a row at a column index; out-of-range reads are missing. -/
def getVal (row : List Value) (i : Nat) : Value :=
  row.getD i Value.missing

/-! ### Kernel-computable rational arithmetic

`Rat.add`, `Rat.mul`, `Rat.sub` and `Rat.inv` do not reduce inside the
kernel, so the embedding computes with `mkRat` / `Rat.divInt` instead and
the bridge lemmas below identify the results with the field operations
of `ℚ`. -/

/-- Addition on `ℚ` via `mkRat` (kernel-computable). -/
def qadd (a b : ℚ) : ℚ := mkRat (a.num * b.den + b.num * a.den) (a.den * b.den)

/-- Subtraction on `ℚ` via `mkRat` (kernel-computable). -/
def qsub (a b : ℚ) : ℚ := mkRat (a.num * b.den - b.num * a.den) (a.den * b.den)

/-- Multiplication on `ℚ` via `mkRat` (kernel-computable). -/
def qmul (a b : ℚ) : ℚ := mkRat (a.num * b.num) (a.den * b.den)

/-- Division of a rational by a natural number via `Rat.divInt`
(kernel-computable); division by zero yields zero, as in `ℚ`. -/
def qdivNat (a : ℚ) (n : Nat) : ℚ := Rat.divInt a.num (a.den * n)

/-- Sum of a list of rationals via `qadd` (kernel-computable). -/
def qsum : List ℚ → ℚ
  | [] => 0
  | a :: l => qadd a (qsum l)

theorem qadd_eq (a b : ℚ) : qadd a b = a + b := by
  have ha : ((a.den : ℚ)) ≠ 0 := by exact_mod_cast a.den_nz
  have hb : ((b.den : ℚ)) ≠ 0 := by exact_mod_cast b.den_nz
  unfold qadd
  rw [Rat.mkRat_eq_div]
  push_cast
  conv_rhs => rw [← Rat.num_div_den a, ← Rat.num_div_den b]
  rw [div_add_div _ _ ha hb]
  rw [div_eq_div_iff (mul_ne_zero ha hb) (mul_ne_zero ha hb)]
  ring

theorem qsub_eq (a b : ℚ) : qsub a b = a - b := by
  have ha : ((a.den : ℚ)) ≠ 0 := by exact_mod_cast a.den_nz
  have hb : ((b.den : ℚ)) ≠ 0 := by exact_mod_cast b.den_nz
  unfold qsub
  rw [Rat.mkRat_eq_div]
  push_cast
  conv_rhs => rw [← Rat.num_div_den a, ← Rat.num_div_den b]
  rw [div_sub_div _ _ ha hb]
  rw [div_eq_div_iff (mul_ne_zero ha hb) (mul_ne_zero ha hb)]
  ring

theorem qmul_eq (a b : ℚ) : qmul a b = a * b := by
  unfold qmul
  rw [Rat.mkRat_eq_div]
  push_cast
  conv_rhs => rw [← Rat.num_div_den a, ← Rat.num_div_den b]
  rw [div_mul_div_comm]

theorem qdivNat_eq (a : ℚ) (n : Nat) : qdivNat a n = a / (n : ℚ) := by
  unfold qdivNat
  rw [Rat.divInt_eq_div]
  push_cast
  conv_rhs => rw [← Rat.num_div_den a]
  rw [div_div]

theorem qsum_eq (l : List ℚ) : qsum l = l.sum := by
  induction l with
  | nil => rfl
  | cons a l ih => rw [qsum, qadd_eq, ih, List.sum_cons]

/-! ### Column resolver (`find_column`, lines 43-55 of the script)

`find_column` tries, in order: exact match, case-insensitive match through a
lower-cased dictionary (later columns overwrite earlier ones, so the last
case-insensitive match wins), and `difflib.get_close_matches(requested,
df.columns, n=1, cutoff=0.7)`. -/

/-- Length of the longest common prefix of two character lists. -/
def commonPrefixLen : List Char → List Char → Nat
  | a :: as, b :: bs => if a = b then commonPrefixLen as bs + 1 else 0
  | _, _ => 0

/-- `SequenceMatcher.find_longest_match` over whole sequences (no junk):
the triple `(i, j, k)` of the longest matching block `a[i:i+k] = b[j:j+k]`,
with ties broken towards the smallest `i`, then the smallest `j`. -/
def bestBlock (a b : List Char) : Nat × Nat × Nat :=
  (List.range a.length).foldl (fun acc i =>
    (List.range b.length).foldl (fun acc j =>
      let k := commonPrefixLen (a.drop i) (b.drop j)
      if acc.2.2 < k then (i, j, k) else acc) acc) (0, 0, 0)

/-- Total size of the matching blocks `SequenceMatcher.get_matching_blocks`
finds: recursively take the longest matching block and recurse on the parts
before and on the parts after it.  The fuel argument only bounds the
recursion depth; `a.length + b.length` is always enough, because each
recursive call strictly decreases the total length. -/
def matchTotal : Nat → List Char → List Char → Nat
  | 0, _, _ => 0
  | fuel + 1, a, b =>
    let t := bestBlock a b
    if t.2.2 = 0 then 0
    else
      matchTotal fuel (a.take t.1) (b.take t.2.1) + t.2.2 +
        matchTotal fuel (a.drop (t.1 + t.2.2)) (b.drop (t.2.1 + t.2.2))

/-- `SequenceMatcher(None, a, b).ratio()`: twice the total matched size over
the total length (`1` for two empty sequences, as in `difflib`). -/
def ratio (a b : List Char) : ℚ :=
  if a.length + b.length = 0 then 1
  else Rat.divInt (2 * (matchTotal (a.length + b.length) a b : Int)) (a.length + b.length)

/-- The fixed `difflib` cutoff of the script: 0.7 on the 0-1 ratio scale. -/
def fuzzyCutoff : ℚ := Rat.divInt 7 10

theorem fuzzyCutoff_eq : fuzzyCutoff = 7 / 10 := by
  unfold fuzzyCutoff
  rw [Rat.divInt_eq_div]
  norm_num

/-- Python `str.lower` (ASCII case folding, the relevant range for column
names), applied characterwise. -/
def strLower (s : String) : String := ⟨s.data.map Char.toLower⟩

/-- Lexicographic (code-point) comparison of strings, as Python compares
`str` values inside score/name pairs. -/
def strLt : List Char → List Char → Bool
  | [], [] => false
  | [], _ :: _ => true
  | _ :: _, [] => false
  | a :: as, b :: bs => if a < b then true else if b < a then false else strLt as bs

/-- `difflib.get_close_matches(word, possibilities, n=1, cutoff=0.7)`:
keep the possibilities whose ratio against `word` reaches the cutoff, then
return the largest `(ratio, name)` pair in Python tuple order (ratio first,
then lexicographically larger name). -/
def getCloseMatches1 (word : String) (possibilities : List String) : Option String :=
  let scored := possibilities.filterMap (fun x =>
    let r := ratio x.data word.data
    if fuzzyCutoff ≤ r then some (r, x) else none)
  match scored with
  | [] => none
  | p :: ps =>
    some (ps.foldl (fun best q =>
      if best.1 < q.1 then q
      else if best.1 = q.1 && strLt best.2.data q.2.data then q
      else best) p).2

/-- `find_column(df, requested)` (lines 43-55): exact match, then
case-insensitive match (the dictionary comprehension keeps the last column
for each lower-cased name), then fuzzy match, else `None`. -/
def find_column (columns : List String) (requested : String) : Option String :=
  if columns.contains requested then some requested
  else
    match columns.reverse.find? (fun c => strLower c == strLower requested) with
    | some c => some c
    | none => getCloseMatches1 requested columns

example : find_column ["Metadata_Day", "Count_Cells"] "Metadata_Day" = some "Metadata_Day" := by decide
example : find_column ["Metadata_Day", "Count_Cells"] "metadata_day" = some "Metadata_Day" := by decide
example : find_column ["Day", "DAY", "day_x"] "dAy" = some "DAY" := by decide
example : find_column ["Metadata_Day", "Count_Cells"] "Metadata_Dy" = some "Metadata_Day" := by decide
example : find_column ["AB"] "Q" = none := by decide
example : ratio "Metadata_Day".data "Metadata_Dy".data = 22 / 23 := by
  rw [show (22 : ℚ) / 23 = Rat.divInt 22 23 by rw [Rat.divInt_eq_div]; norm_num]
  decide

/-! ### Group aggregation (`process_data`, lines 23-37 of the script)

`process_data` runs `data.groupby(cols)[measure_col].agg(['mean', 'count',
'std']).reset_index()`, appends `sem = std / sqrt(count) if count > 0 else
nan`, and renames the statistic columns.  pandas semantics embedded here:

* `groupby` drops every row whose key tuple contains a missing value
  (default `dropna=True`), and groups the rest by value equality, with
  integer and float cells of one column compared numerically (`norm`);
* `count` counts the non-missing measurement values of the group, `mean`
  is their arithmetic mean (`NaN` for an all-missing group), `std` is the
  sample standard deviation with denominator `n - 1` (`NaN` for `n ≤ 1`);
* groups are enumerated in first-occurrence order (pandas sorts them by
  key; every ordered fact proved below concerns inputs on which the two
  orders agree, and the other facts are order-insensitive);
* errors that the `try` block of the script can catch are returned as
  `AggErr` values, in the order pandas raises them: `groupby([])` raises
  `ValueError`, a group or measure column absent from the header raises
  `KeyError`, and aggregating a measure column of `object` dtype (one that
  contains a string cell anywhere) raises `TypeError`. -/

/-- Numeric view of a cell: measurement extraction for the aggregations. -/
def Value.toNum : Value → Option ℚ
  | .int n => some (mkRat n 1)
  | .num q => some q
  | .str _ => none
  | .missing => none

/-- Group-key normalization: in a pandas column, integer and float entries
compare numerically (an `int64`/`float64` column holds them as the same
float, and Python `1 == 1.0` holds under `object` dtype too). -/
def Value.norm : Value → Value
  | .int n => .num (mkRat n 1)
  | v => v

/-- Key tuple of a row for a list of group columns. -/
def keyOf (header : List String) (cols : List String) (row : List Value) : List Value :=
  cols.map (fun c => (getVal row (colIdx header c)).norm)

/-- A key tuple participates in grouping only if none of its components is
missing (`groupby` default `dropna=True`). -/
def validKey (k : List Value) : Bool := !(k.contains Value.missing)

/-- First-occurrence deduplication, the enumeration order of the groups. -/
def firstDedup : List (List Value) → List (List Value)
  | [] => []
  | k :: ks => k :: (firstDedup ks).filter (fun x => x ≠ k)

/-- The distinct valid key tuples of a row list, in first-occurrence order. -/
def groupKeys (header : List String) (cols : List String) (rows : List (List Value)) :
    List (List Value) :=
  firstDedup (rows.filterMap (fun r =>
    let k := keyOf header cols r
    if validKey k then some k else none))

/-- The rows of one group: the rows whose key tuple equals `k`. -/
def groupRows (header : List String) (cols : List String) (rows : List (List Value))
    (k : List Value) : List (List Value) :=
  rows.filter (fun r => keyOf header cols r == k)

/-- The non-missing measurement values of a row list, in row order. -/
def measureVals (header : List String) (measure : String) (rows : List (List Value)) :
    List ℚ :=
  rows.filterMap (fun r => (getVal r (colIdx header measure)).toNum)

/-- One row of the aggregated result: the group key values and the four
statistics.  `mean` is `none` for pandas `NaN`; `stdSq` and `semSq` are
the squares of the `std` and `sem` columns (std = √stdSq, sem = √semSq),
again with `none` for `NaN`. -/
structure AggRow where
  key : List Value
  n : Nat
  mean : Option ℚ
  stdSq : Option ℚ
  semSq : Option ℚ
deriving DecidableEq, Repr

/-- The statistics of one group, from its non-missing measurement values:
`count`, `mean` and `std` of the `agg` call on line 31, and the guarded
`sem = std / sqrt(count) if count > 0 else nan` of line 32 (on squares:
`semSq = stdSq / n`; `NaN` std propagates to `NaN` sem). -/
def mkAggRow (k : List Value) (vals : List ℚ) : AggRow :=
  let n := vals.length
  let mean := if n = 0 then none else some (qdivNat (qsum vals) n)
  let stdSq :=
    if 2 ≤ n then
      some (qdivNat (qsum (vals.map (fun x =>
        qmul (qsub x (qdivNat (qsum vals) n)) (qsub x (qdivNat (qsum vals) n))))) (n - 1))
    else none
  let semSq := if 0 < n then stdSq.map (fun v => qdivNat v n) else none
  { key := k, n := n, mean := mean, stdSq := stdSq, semSq := semSq }

/-- An aggregated result table: the header after the `rename` of line 33,
and one `AggRow` per group. -/
structure AggResult where
  header : List String
  rows : List AggRow
deriving DecidableEq, Repr

/-- The statistic column names appended to the group columns. -/
def statHeader (measure : String) : List String :=
  [measure ++ "_mean", measure ++ "_n", measure ++ "_std", measure ++ "_sem"]

/-- Errors the aggregation lines can raise, all caught by the enclosing
`try` blocks: `ValueError` from `groupby([])`, `KeyError` from a column
absent from the header, `TypeError` from aggregating a string-typed
measurement column. -/
inductive AggErr : Type
  | noGroupKeys
  | keyErr (c : String)
  | typeErr (c : String)
deriving DecidableEq, Repr

/-- The error check of the aggregation lines, in the order pandas raises:
`groupby(cols)` (empty list, then each group column), `[measure_col]`,
then the `agg` over the measurement column (`object` dtype, i.e. a string
cell anywhere in the column, fails).  `dtypeRows` are the rows fixing the
measurement column's dtype, which is the dtype of the original frame even
when a filtered copy is aggregated. -/
def aggCheck (header : List String) (dtypeRows : List (List Value))
    (cols : List String) (measure : String) : Option AggErr :=
  if cols.isEmpty then some .noGroupKeys
  else
    match cols.find? (fun c => !(header.contains c)) with
    | some c => some (.keyErr c)
    | none =>
      if !(header.contains measure) then some (.keyErr measure)
      else if dtypeRows.any (fun r =>
        match getVal r (colIdx header measure) with
        | .str _ => true
        | _ => false) then some (.typeErr measure)
      else none

/-- The successful aggregation: lines 31-33 on a frame that passes
`aggCheck` — group, compute the four statistics per group, and build the
renamed result header. -/
def aggCompute (header : List String) (rows : List (List Value))
    (cols : List String) (measure : String) : AggResult :=
  { header := cols ++ statHeader measure,
    rows := (groupKeys header cols rows).map (fun k =>
      mkAggRow k (measureVals header measure (groupRows header cols rows k))) }

/-- `process_data(data, condition_cols, measure_col)` with an already-split
column list (the `else` branch of lines 26-29): the two aggregation lines,
returning the error the `except` block would catch instead of raising. -/
def process_data (t : Table) (cols : List String) (measure : String) :
    Except AggErr AggResult :=
  match aggCheck t.header t.rows cols measure with
  | some e => .error e
  | none => .ok (aggCompute t.header t.rows cols measure)

/-- What the caller of `process_data` observes: the `except` block prints
the error and calls `sys.exit(1)` (lines 35-37), so any processing error
terminates the run with a non-zero status. -/
inductive RunOutcome : Type
  | exit1 (e : AggErr)
  | ok (r : AggResult)
deriving DecidableEq, Repr

/-- `process_data` as run from `main`: result table, or fatal exit 1. -/
def process_data_run (t : Table) (cols : List String) (measure : String) : RunOutcome :=
  match process_data t cols measure with
  | .error e => .exit1 e
  | .ok r => .ok r

/-! ### Matched-pair path (`process_matching_day_condition`, lines 39-77)

The function resolves the two requested names with `find_column`, filters
the rows where the two resolved columns agree after `astype(str)` coercion,
and aggregates the survivors — grouping by the *requested* day name
`day_col` (line 71), not by the resolved `day_actual`.  Failures to
resolve, and an empty filtered frame, print a diagnostic and return the
columnless empty frame `pd.DataFrame()`; any other exception is printed
and re-raised (lines 75-77). -/

/-- `astype(str)` of a single cell: Python's string form of the value
(`NaN` becomes `"nan"`; rational cells idealize float `str()` output). -/
def valueToString : Value → String
  | .int n => toString n
  | .num q => toString q
  | .str s => s
  | .missing => "nan"

/-- The mask-and-filter of lines 65-66: keep the rows whose string-coerced
day cell equals their string-coerced condition cell. -/
def mpFiltered (t : Table) (dayActual condActual : String) : List (List Value) :=
  t.rows.filter (fun r =>
    valueToString (getVal r (colIdx t.header dayActual)) ==
      valueToString (getVal r (colIdx t.header condActual)))

/-- A diagnostic message printed by the matched-pair path: the
could-not-find report with the available column names (lines 60-61), or
the no-matching-rows report with the two requested names (line 68). -/
inductive MPMsg : Type
  | couldNotFind (available : List String)
  | noRows (dayCol condCol : String)
deriving DecidableEq, Repr

/-- The observable outcome of `process_matching_day_condition`: a returned
result table together with the diagnostics printed on the way (empty list
when the path succeeded silently), or an exception printed and re-raised
by the `except` block of lines 75-77. -/
inductive MPOutcome : Type
  | returned (msgs : List MPMsg) (result : AggResult)
  | raised (e : AggErr)
deriving DecidableEq, Repr

/-- The columnless empty frame `pd.DataFrame()` returned by the two
recoverable failure branches. -/
def emptyResult : AggResult := { header := [], rows := [] }

/-- `process_matching_day_condition(data, day_col, cond_col, measure_col)`
(lines 39-77).  Note line 71 groups the filtered frame by the requested
`day_col`, not by the resolved `day_actual`; the string-typedness check of
the aggregation uses the whole original column (`data[mask].copy()` keeps
the original dtype). -/
def process_matching_day_condition (t : Table) (dayCol condCol measure : String) :
    MPOutcome :=
  match find_column t.header dayCol, find_column t.header condCol with
  | some dayActual, some condActual =>
    let filtered := mpFiltered t dayActual condActual
    if filtered.isEmpty then .returned [.noRows dayCol condCol] emptyResult
    else
      match aggCheck t.header t.rows [dayCol] measure with
      | some e => .raised e
      | none => .returned [] (aggCompute t.header filtered [dayCol] measure)
  | _, _ => .returned [.couldNotFind t.header] emptyResult

/-! ### Properties of the column resolver -/

theorem foldl_pick_mem {α : Type} (f : α → α → α) (hf : ∀ a b, f a b = a ∨ f a b = b) :
    ∀ (l : List α) (a : α), l.foldl f a ∈ a :: l := by
  intro l
  induction l with
  | nil => intro a; simp
  | cons b l ih =>
    intro a
    rw [List.foldl_cons]
    have hm := ih (f a b)
    rcases hf a b with h | h <;> rw [h] at hm ⊢ <;>
      rcases List.mem_cons.mp hm with h1 | h1 <;> simp [h1]

theorem getCloseMatches1_some {word : String} {ps : List String} {c : String}
    (h : getCloseMatches1 word ps = some c) :
    c ∈ ps ∧ fuzzyCutoff ≤ ratio c.data word.data := by
  unfold getCloseMatches1 at h
  set f := fun (x : String) =>
    if fuzzyCutoff ≤ ratio x.data word.data then some (ratio x.data word.data, x) else none
    with hf
  have hscored : ∀ p ∈ ps.filterMap f, p.2 ∈ ps ∧ fuzzyCutoff ≤ ratio p.2.data word.data := by
    intro p hp
    obtain ⟨x, hx, hfx⟩ := List.mem_filterMap.mp hp
    rw [hf] at hfx
    by_cases hcut : fuzzyCutoff ≤ ratio x.data word.data
    · simp only [hcut, if_pos] at hfx
      cases hfx
      exact ⟨hx, hcut⟩
    · simp [hcut] at hfx
  cases hsc : ps.filterMap f with
  | nil => rw [hsc] at h; exact absurd h (by simp)
  | cons p ps' =>
    rw [hsc] at h
    simp only [Option.some.injEq] at h
    set pick := fun (best q : ℚ × String) =>
      if best.1 < q.1 then q
      else if best.1 = q.1 && strLt best.2.data q.2.data then q
      else best with hpick
    have hmem : ps'.foldl pick p ∈ p :: ps' := by
      refine foldl_pick_mem pick ?_ ps' p
      intro a b
      rw [hpick]
      dsimp only
      split
      · right; rfl
      · split
        · right; rfl
        · left; rfl
    rw [← hsc] at hmem
    have := hscored _ hmem
    rw [h] at this
    exact this

theorem getCloseMatches1_none {word : String} {ps : List String}
    (h : ∀ x ∈ ps, ¬ fuzzyCutoff ≤ ratio x.data word.data) :
    getCloseMatches1 word ps = none := by
  unfold getCloseMatches1
  have hnil : ps.filterMap (fun x =>
      if fuzzyCutoff ≤ ratio x.data word.data then some (ratio x.data word.data, x) else none) = [] := by
    rw [List.filterMap_eq_nil_iff]
    intro x hx
    simp [h x hx]
  simp only [hnil]

theorem find_column_mem {cols : List String} {req c : String}
    (h : find_column cols req = some c) : c ∈ cols := by
  unfold find_column at h
  by_cases hx : cols.contains req
  · rw [if_pos hx] at h
    cases h
    exact List.mem_of_elem_eq_true hx
  · rw [if_neg hx] at h
    cases hfind : cols.reverse.find? (fun x => strLower x == strLower req) with
    | some c' =>
      rw [hfind] at h
      cases h
      exact List.mem_reverse.mp (List.mem_of_find?_eq_some hfind)
    | none =>
      rw [hfind] at h
      exact (getCloseMatches1_some h).1

theorem find_column_exact {cols : List String} {req : String} (h : req ∈ cols) :
    find_column cols req = some req := by
  unfold find_column
  rw [if_pos (List.elem_eq_true_of_mem h)]

theorem find_column_lower {cols : List String} {req : String} (hx : req ∉ cols)
    {c : String} (hc : c ∈ cols) (hl : strLower c = strLower req) :
    ∃ c', find_column cols req = some c' ∧ c' ∈ cols ∧ strLower c' = strLower req := by
  unfold find_column
  rw [if_neg (fun hcon => hx (List.mem_of_elem_eq_true hcon))]
  have hsome : (cols.reverse.find? (fun x => strLower x == strLower req)).isSome := by
    rw [List.find?_isSome]
    exact ⟨c, List.mem_reverse.mpr hc, by simp [hl]⟩
  cases hfind : cols.reverse.find? (fun x => strLower x == strLower req) with
  | none => rw [hfind] at hsome; simp at hsome
  | some c' =>
    refine ⟨c', rfl, List.mem_reverse.mp (List.mem_of_find?_eq_some hfind), ?_⟩
    have := List.find?_some hfind
    simpa using this

theorem find_column_no_lower_match {cols : List String} {req : String} (hx : req ∉ cols)
    (hl : ∀ c ∈ cols, strLower c ≠ strLower req) :
    find_column cols req = getCloseMatches1 req cols := by
  unfold find_column
  rw [if_neg (fun hcon => hx (List.mem_of_elem_eq_true hcon))]
  have hfind : cols.reverse.find? (fun x => strLower x == strLower req) = none := by
    rw [List.find?_eq_none]
    intro c hc
    simp [hl c (List.mem_reverse.mp hc)]
  rw [hfind]

/-- Claim C2: column resolution tries exact match first, then
case-insensitive match, then fuzzy match accepted only at similarity
`≥ 0.7`; it is deterministic (a function), returns at most one name, that
name is always one of the available columns, resolution of an exact column
name is that same name, and when no stage matches it reports no match. -/
theorem find_column_resolution_order (cols : List String) (req : String)
    (hne : cols ≠ []) :
    (req ∈ cols → find_column cols req = some req) ∧
    (∀ c, find_column cols req = some c → c ∈ cols) ∧
    (req ∉ cols → ∀ c ∈ cols, strLower c = strLower req →
      ∃ c', find_column cols req = some c' ∧ c' ∈ cols ∧ strLower c' = strLower req) ∧
    (req ∉ cols → (∀ c ∈ cols, strLower c ≠ strLower req) →
      ∀ c, find_column cols req = some c → 7 / 10 ≤ ratio c.data req.data) ∧
    (req ∉ cols → (∀ c ∈ cols, strLower c ≠ strLower req) →
      (∀ c ∈ cols, ratio c.data req.data < 7 / 10) → find_column cols req = none) := by
  refine ⟨fun h => find_column_exact h, fun c h => find_column_mem h,
    fun hx c hc hl => find_column_lower hx hc hl, ?_, ?_⟩
  · intro hx hl c h
    rw [find_column_no_lower_match hx hl] at h
    have := (getCloseMatches1_some h).2
    rwa [fuzzyCutoff_eq] at this
  · intro hx hl hrat
    rw [find_column_no_lower_match hx hl]
    refine getCloseMatches1_none ?_
    intro x hxmem
    rw [fuzzyCutoff_eq]
    exact not_le.mpr (hrat x hxmem)

/-- Witness for C2 at a concrete input: a non-empty column list, an exact
request resolved to itself. -/
theorem find_column_resolution_order_witness :
    find_column ["Metadata_Day", "Count_Cells"] "Metadata_Day" = some "Metadata_Day" :=
  (find_column_resolution_order ["Metadata_Day", "Count_Cells"] "Metadata_Day"
    (by decide)).1 (by decide)

/-! ### Properties of the grouping path -/

theorem process_data_ok {t : Table} {cols : List String} {measure : String} {r : AggResult}
    (h : process_data t cols measure = .ok r) :
    aggCheck t.header t.rows cols measure = none ∧
      r = aggCompute t.header t.rows cols measure := by
  unfold process_data at h
  cases hc : aggCheck t.header t.rows cols measure with
  | some e => rw [hc] at h; cases h
  | none => rw [hc] at h; cases h; exact ⟨rfl, rfl⟩

/-- Arithmetic mean of a list of rationals. -/
def sampleMean (vals : List ℚ) : ℚ := vals.sum / (vals.length : ℚ)

/-- Sample variance (square of the sample standard deviation), with
denominator `n - 1`. -/
def sampleVariance (vals : List ℚ) : ℚ :=
  ((vals.map (fun x => (x - sampleMean vals) ^ 2)).sum) / ((vals.length : ℚ) - 1)

theorem mkAggRow_key (k : List Value) (vals : List ℚ) : (mkAggRow k vals).key = k := rfl

theorem mkAggRow_n (k : List Value) (vals : List ℚ) : (mkAggRow k vals).n = vals.length := rfl

theorem mkAggRow_mean (k : List Value) (vals : List ℚ) :
    (mkAggRow k vals).mean =
      if vals.length = 0 then none else some (sampleMean vals) := by
  unfold mkAggRow sampleMean
  simp only [qdivNat_eq, qsum_eq]

theorem mkAggRow_stdSq (k : List Value) (vals : List ℚ) :
    (mkAggRow k vals).stdSq =
      if 2 ≤ vals.length then some (sampleVariance vals) else none := by
  simp only [mkAggRow, sampleVariance]
  by_cases h2 : 2 ≤ vals.length
  · rw [if_pos h2, if_pos h2]
    congr 1
    rw [qdivNat_eq, qsum_eq]
    have hcast : ((vals.length - 1 : ℕ) : ℚ) = (vals.length : ℚ) - 1 := by
      rw [Nat.cast_sub (by omega)]
      norm_num
    rw [hcast]
    have hmap : (fun x => qmul (qsub x (qdivNat (qsum vals) vals.length))
        (qsub x (qdivNat (qsum vals) vals.length))) = fun x : ℚ => (x - sampleMean vals) ^ 2 := by
      funext x
      rw [qmul_eq, qsub_eq, qdivNat_eq, qsum_eq, ← pow_two]
      rfl
    rw [hmap]
  · rw [if_neg h2, if_neg h2]

theorem mkAggRow_semSq (k : List Value) (vals : List ℚ) :
    (mkAggRow k vals).semSq =
      if 0 < vals.length then
        (mkAggRow k vals).stdSq.map (fun v => v / (vals.length : ℚ))
      else none := by
  simp only [mkAggRow]
  by_cases h0 : 0 < vals.length
  · rw [if_pos h0, if_pos h0]
    congr 1
    funext v
    rw [qdivNat_eq]
  · rw [if_neg h0, if_neg h0]

/-- The non-missing measurement values of one result row's group. -/
def groupVals (t : Table) (cols : List String) (measure : String) (k : List Value) :
    List ℚ :=
  measureVals t.header measure (groupRows t.header cols t.rows k)

/-- Claim C1: in the grouping path, every result row's `n` is the count of
non-missing measurement values of its group, `mean` their arithmetic mean
(missing for an all-missing group), `std` the sample standard deviation
with denominator `n - 1` (missing below two values, stated on its square),
and `sem = std / sqrt n` when `n > 0` and missing otherwise (stated on
squares: `semSq = stdSq / n`, with missing `std` propagated); the `sem`
computation is total — the division is guarded by `n > 0` — and no error
is raised. -/
theorem process_data_row_stats (t : Table) (cols : List String) (measure : String)
    (r : AggResult) (hok : process_data t cols measure = .ok r) :
    ∀ row ∈ r.rows,
      row.n = (groupVals t cols measure row.key).length ∧
      (0 < row.n → row.mean = some (sampleMean (groupVals t cols measure row.key))) ∧
      (row.n = 0 → row.mean = none) ∧
      (2 ≤ row.n → row.stdSq = some (sampleVariance (groupVals t cols measure row.key))) ∧
      (row.n < 2 → row.stdSq = none) ∧
      (0 < row.n → row.semSq = row.stdSq.map (fun v => v / (row.n : ℚ))) ∧
      (row.n = 0 → row.semSq = none) := by
  intro row hrow
  obtain ⟨hchk, hr⟩ := process_data_ok hok
  rw [hr] at hrow
  unfold aggCompute at hrow
  simp only at hrow
  obtain ⟨k, hk, hrho⟩ := List.mem_map.mp hrow
  have hkey : row.key = k := by rw [← hrho, mkAggRow_key]
  have hvals : groupVals t cols measure row.key =
      measureVals t.header measure (groupRows t.header cols t.rows k) := by
    rw [hkey]; rfl
  set vals := measureVals t.header measure (groupRows t.header cols t.rows k) with hvdef
  have hn : row.n = vals.length := by rw [← hrho, mkAggRow_n]
  refine ⟨by rw [hvals, hn], ?_, ?_, ?_, ?_, ?_, ?_⟩
  · intro hpos
    rw [hvals, ← hrho, mkAggRow_mean, if_neg (by omega)]
  · intro hzero
    rw [← hrho, mkAggRow_mean, if_pos (by omega)]
  · intro h2
    rw [hvals, ← hrho, mkAggRow_stdSq, if_pos (by omega)]
  · intro h2
    rw [← hrho, mkAggRow_stdSq, if_neg (by omega)]
  · intro hpos
    rw [← hrho, mkAggRow_semSq, if_pos (by omega)]
    rw [mkAggRow_n]
  · intro hzero
    rw [← hrho, mkAggRow_semSq, if_neg (by omega)]

/-- Equality of `Except` outcomes over decidable components is decidable
(used to evaluate concrete runs of `process_data`). -/
instance {ε α : Type} [DecidableEq ε] [DecidableEq α] : DecidableEq (Except ε α) := fun a b =>
  match a, b with
  | .error e, .error f =>
    if h : e = f then isTrue (by rw [h]) else isFalse (fun hc => by cases hc; exact h rfl)
  | .ok x, .ok y =>
    if h : x = y then isTrue (by rw [h]) else isFalse (fun hc => by cases hc; exact h rfl)
  | .error _, .ok _ => isFalse (fun hc => by cases hc)
  | .ok _, .error _ => isFalse (fun hc => by cases hc)

theorem firstDedup_mem {k : List Value} : ∀ {l : List (List Value)}, k ∈ firstDedup l ↔ k ∈ l := by
  intro l
  induction l with
  | nil => simp [firstDedup]
  | cons a l ih =>
    simp only [firstDedup, List.mem_cons]
    constructor
    · rintro (h | h)
      · left; exact h
      · right; exact ih.mp (List.mem_of_mem_filter h)
    · rintro (h | h)
      · left; exact h
      · by_cases hk : k = a
        · left; exact hk
        · right; exact List.mem_filter.mpr ⟨ih.mpr h, by simp [hk]⟩

theorem firstDedup_nodup : ∀ (l : List (List Value)), (firstDedup l).Nodup := by
  intro l
  induction l with
  | nil => simp [firstDedup]
  | cons a l ih =>
    rw [firstDedup]
    refine List.nodup_cons.mpr ⟨?_, List.Nodup.filter _ ih⟩
    intro hmem
    have := List.of_mem_filter hmem
    simp at this

theorem validKey_iff {k : List Value} : validKey k = true ↔ Value.missing ∉ k := by
  unfold validKey
  simp

theorem mem_groupKeys {header cols : List String} {rows : List (List Value)} {k : List Value} :
    k ∈ groupKeys header cols rows ↔
      validKey k = true ∧ ∃ dr ∈ rows, keyOf header cols dr = k := by
  unfold groupKeys
  rw [firstDedup_mem, List.mem_filterMap]
  constructor
  · rintro ⟨r, hr, hif⟩
    dsimp only at hif
    by_cases hv : validKey (keyOf header cols r)
    · rw [if_pos hv] at hif
      cases hif
      exact ⟨hv, r, hr, rfl⟩
    · rw [if_neg hv] at hif
      cases hif
  · rintro ⟨hv, r, hr, hk⟩
    refine ⟨r, hr, ?_⟩
    dsimp only
    rw [hk, if_pos hv]

theorem aggCompute_keys (header : List String) (rows : List (List Value))
    (cols : List String) (measure : String) :
    (aggCompute header rows cols measure).rows.map AggRow.key = groupKeys header cols rows := by
  unfold aggCompute
  simp only
  rw [List.map_map]
  have hcomp : (AggRow.key ∘ fun k =>
      mkAggRow k (measureVals header measure (groupRows header cols rows k))) = id := by
    funext k; rfl
  rw [hcomp, List.map_id]

/-- The table of the C3/C4 counterexamples: one row whose group-key cell is
missing (and one fully valid row). -/
def tMissingKey : Table :=
  { header := ["K", "M"], rows := [[Value.missing, Value.int 5], [Value.int 1, Value.int 7]] }

/-- The result the grouping path produces for `tMissingKey` grouped by `K`:
the missing-key row is dropped entirely, leaving the single group `K = 1`. -/
def rMissingKey : AggResult :=
  { header := ["K", "M_mean", "M_n", "M_std", "M_sem"],
    rows := [{ key := [Value.num 1], n := 1, mean := some 7, stdSq := none, semSq := none }] }

/-- Counterexample for C3: the first row of `tMissingKey` has a missing
`K` cell, yet the grouping-path result contains only the `K = 1` group —
missing-key rows are dropped, they do not form their own group. -/
theorem process_data_missing_key_cex :
    getVal (tMissingKey.rows.getD 0 []) (colIdx tMissingKey.header "K") = Value.missing ∧
    process_data tMissingKey ["K"] "M" = Except.ok rMissingKey := by decide

/-- Claim C3 (amended): in the grouping path, rows with a missing value in
any group-key column are dropped (pandas `groupby` default `dropna=True`),
so no result group has a missing key component; the groups are exactly the
distinct fully-non-missing key tuples occurring in the table, compared by
value equality, each appearing once. -/
theorem process_data_missing_key_grouping (t : Table) (cols : List String)
    (measure : String) (r : AggResult) (hok : process_data t cols measure = .ok r) :
    (r.rows.map AggRow.key).Nodup ∧
    (∀ row ∈ r.rows, Value.missing ∉ row.key) ∧
    (∀ k : List Value, (∃ row ∈ r.rows, row.key = k) ↔
      (Value.missing ∉ k ∧ ∃ dr ∈ t.rows, keyOf t.header cols dr = k)) := by
  obtain ⟨hchk, hr⟩ := process_data_ok hok
  subst hr
  refine ⟨?_, ?_, ?_⟩
  · rw [aggCompute_keys]
    unfold groupKeys
    exact firstDedup_nodup _
  · intro row hrow
    have hkmem : row.key ∈ (aggCompute t.header t.rows cols measure).rows.map AggRow.key :=
      List.mem_map.mpr ⟨row, hrow, rfl⟩
    rw [aggCompute_keys] at hkmem
    exact validKey_iff.mp (mem_groupKeys.mp hkmem).1
  · intro k
    have hmapmem : (∃ row ∈ (aggCompute t.header t.rows cols measure).rows, row.key = k) ↔
        k ∈ (aggCompute t.header t.rows cols measure).rows.map AggRow.key := by
      rw [List.mem_map]
    rw [hmapmem, aggCompute_keys, mem_groupKeys, validKey_iff]

/-- Witness for C3 (amended) at a concrete input: the single result group
of `tMissingKey` has no missing key component. -/
theorem process_data_missing_key_grouping_witness :
    Value.missing ∉ ([Value.num 1] : List Value) :=
  (process_data_missing_key_grouping tMissingKey ["K"] "M" rMissingKey (by decide)).2.1
    { key := [Value.num 1], n := 1, mean := some 7, stdSq := none, semSq := none } (by decide)

/-- A small concrete table: one group `K = 1` with measurements 10 and 20. -/
def tTwo : Table :=
  { header := ["K", "M"], rows := [[Value.int 1, Value.int 10], [Value.int 1, Value.int 20]] }

/-- The grouping-path result for `tTwo` by `K`: n = 2, mean = 15,
std² = 50, sem² = 25 (std = √50, sem = √50 / √2 = 5). -/
def rTwo : AggResult :=
  { header := ["K", "M_mean", "M_n", "M_std", "M_sem"],
    rows := [{ key := [Value.num 1], n := 2, mean := some 15, stdSq := some 50,
               semSq := some 25 }] }

/-- The single result row of `rTwo`. -/
def rowTwo : AggRow :=
  { key := [Value.num 1], n := 2, mean := some 15, stdSq := some 50, semSq := some 25 }

/-- Witness for C1 at a concrete input: the statistics property instantiated
at the single result row of `tTwo` grouped by `K`. -/
theorem process_data_row_stats_witness :
    rowTwo.n = (groupVals tTwo ["K"] "M" rowTwo.key).length ∧
    (0 < rowTwo.n → rowTwo.mean = some (sampleMean (groupVals tTwo ["K"] "M" rowTwo.key))) ∧
    (rowTwo.n = 0 → rowTwo.mean = none) ∧
    (2 ≤ rowTwo.n → rowTwo.stdSq = some (sampleVariance (groupVals tTwo ["K"] "M" rowTwo.key))) ∧
    (rowTwo.n < 2 → rowTwo.stdSq = none) ∧
    (0 < rowTwo.n → rowTwo.semSq = rowTwo.stdSq.map (fun v => v / (rowTwo.n : ℚ))) ∧
    (rowTwo.n = 0 → rowTwo.semSq = none) :=
  process_data_row_stats tTwo ["K"] "M" rTwo (by decide) rowTwo (by decide)

theorem sum_map_add_nat {K : Type} (ks : List K) (f g : K → Nat) :
    (ks.map (fun k => f k + g k)).sum = (ks.map f).sum + (ks.map g).sum := by
  induction ks with
  | nil => rfl
  | cons a ks ih =>
    simp only [List.map_cons, List.sum_cons, ih]
    omega

theorem sum_map_ite_single {K : Type} [DecidableEq K] :
    ∀ (ks : List K) (k₀ : K), ks.Nodup → k₀ ∈ ks → ∀ (c : Nat),
      (ks.map (fun k => if k₀ = k then c else 0)).sum = c := by
  intro ks
  induction ks with
  | nil => intro k₀ _ h c; cases h
  | cons a ks ih =>
    intro k₀ hnd hmem c
    rw [List.map_cons, List.sum_cons]
    rcases List.mem_cons.mp hmem with h | h
    · subst h
      rw [if_pos rfl]
      have hz : (ks.map (fun k => if k₀ = k then c else 0)).sum = 0 := by
        apply List.sum_eq_zero
        intro x hx
        obtain ⟨k, hk, hmap⟩ := List.mem_map.mp hx
        have hne : k₀ ≠ k := fun he => (List.nodup_cons.mp hnd).1 (he ▸ hk)
        rw [if_neg hne] at hmap
        exact hmap.symm
      rw [hz]
      omega
    · have hne : k₀ ≠ a := by
        intro he
        exact (List.nodup_cons.mp hnd).1 (he ▸ h)
      rw [if_neg hne, Nat.zero_add]
      exact ih k₀ (List.nodup_cons.mp hnd).2 h c

theorem sum_over_groups {α K : Type} [BEq K] [LawfulBEq K] [DecidableEq K]
    (key : α → K) (w : α → Nat) :
    ∀ (l : List α) (ks : List K), ks.Nodup → (∀ a ∈ l, key a ∈ ks) →
      (ks.map (fun k => ((l.filter (fun a => key a == k)).map w).sum)).sum
        = (l.map w).sum := by
  intro l
  induction l with
  | nil =>
    intro ks _ _
    apply List.sum_eq_zero
    intro x hx
    obtain ⟨k, _, hmap⟩ := List.mem_map.mp hx
    simp at hmap
    exact hmap.symm
  | cons a l ih =>
    intro ks hnd hcov
    have hterm : ∀ k, (((a :: l).filter (fun x => key x == k)).map w).sum =
        (if key a = k then w a else 0) + ((l.filter (fun x => key x == k)).map w).sum := by
      intro k
      rw [List.filter_cons]
      by_cases hk : key a = k
      · rw [if_pos hk]
        simp only [hk, beq_self_eq_true, if_pos]
        rw [List.map_cons, List.sum_cons]
      · rw [if_neg hk]
        have hbeq : (key a == k) = false := by simp [hk]
        simp only [hbeq, Bool.false_eq_true, if_neg, not_false_iff]
        omega
    calc (ks.map (fun k => (((a :: l).filter (fun x => key x == k)).map w).sum)).sum
        = (ks.map (fun k =>
            (if key a = k then w a else 0) +
              ((l.filter (fun x => key x == k)).map w).sum)).sum := by
          congr 1
          exact List.map_congr_left (fun k _ => hterm k)
      _ = (ks.map (fun k => if key a = k then w a else 0)).sum +
            (ks.map (fun k => ((l.filter (fun x => key x == k)).map w).sum)).sum :=
          sum_map_add_nat ks _ _
      _ = w a + (l.map w).sum := by
          rw [sum_map_ite_single ks (key a) hnd (hcov a (List.mem_cons_self a l)) (w a)]
          rw [ih ks hnd (fun x hx => hcov x (List.mem_cons_of_mem a hx))]
      _ = ((a :: l).map w).sum := by rw [List.map_cons, List.sum_cons]

theorem length_filterMap_eq_sum {α β : Type} (f : α → Option β) (l : List α) :
    (l.filterMap f).length = (l.map (fun a => if (f a).isSome then 1 else 0)).sum := by
  induction l with
  | nil => rfl
  | cons a l ih =>
    rw [List.filterMap_cons]
    cases hfa : f a with
    | none => simp [hfa, ih]
    | some b => simp [hfa, ih, Nat.add_comm]

theorem groupRows_filter_valid {header cols : List String} {rows : List (List Value)}
    {k : List Value} (hv : validKey k = true) :
    groupRows header cols rows k =
      groupRows header cols (rows.filter (fun r => validKey (keyOf header cols r))) k := by
  unfold groupRows
  rw [List.filter_filter]
  apply List.filter_congr
  intro r _
  by_cases hk : keyOf header cols r = k
  · have h1 : (keyOf header cols r == k) = true := by simp [hk]
    have h2 : validKey (keyOf header cols r) = true := by rw [hk]; exact hv
    rw [h1, h2]
    rfl
  · have h1 : (keyOf header cols r == k) = false := by simp [hk]
    rw [h1]
    simp

/-- The result the grouping path produces for `tMissingKey`: the sum of the
`n` column is 1, while the table holds 2 non-missing measurement values. -/
theorem process_data_sum_n_cex :
    (measureVals tMissingKey.header "M" tMissingKey.rows).length = 2 ∧
    process_data tMissingKey ["K"] "M" = Except.ok rMissingKey ∧
    (rMissingKey.rows.map AggRow.n).sum = 1 := by decide

/-- Claim C4 (amended): in the grouping path, the sum of the `n` column
over all result rows equals the count of non-missing measurement values
among the rows whose group-key cells are all non-missing (rows with a
missing group-key cell are dropped by `groupby` and contribute nothing). -/
theorem process_data_sum_n (t : Table) (cols : List String) (measure : String)
    (r : AggResult) (hok : process_data t cols measure = .ok r) :
    (r.rows.map AggRow.n).sum =
      (measureVals t.header measure
        (t.rows.filter (fun dr => validKey (keyOf t.header cols dr)))).length := by
  obtain ⟨hchk, hr⟩ := process_data_ok hok
  subst hr
  unfold aggCompute
  simp only
  rw [List.map_map]
  have hcomp : (AggRow.n ∘ fun k =>
      mkAggRow k (measureVals t.header measure (groupRows t.header cols t.rows k))) =
      fun k => (measureVals t.header measure (groupRows t.header cols t.rows k)).length := by
    funext k; rfl
  rw [hcomp]
  set l := t.rows.filter (fun dr => validKey (keyOf t.header cols dr)) with hl
  set f := fun (r : List Value) => (getVal r (colIdx t.header measure)).toNum with hf
  set w := fun (a : List Value) => if (f a).isSome then 1 else 0 with hw
  have hstep : ∀ k ∈ groupKeys t.header cols t.rows,
      (measureVals t.header measure (groupRows t.header cols t.rows k)).length =
        ((l.filter (fun a => keyOf t.header cols a == k)).map w).sum := by
    intro k hk
    rw [groupRows_filter_valid (mem_groupKeys.mp hk).1, ← hl]
    unfold measureVals groupRows
    rw [← hf, length_filterMap_eq_sum f, ← hw]
  rw [List.map_congr_left hstep]
  rw [sum_over_groups (keyOf t.header cols) w l (groupKeys t.header cols t.rows)
    (by unfold groupKeys; exact firstDedup_nodup _)
    (by
      intro a ha
      rw [hl] at ha
      have hmem := List.mem_of_mem_filter ha
      have hvalid := List.of_mem_filter ha
      exact mem_groupKeys.mpr ⟨hvalid, a, hmem, rfl⟩)]
  unfold measureVals
  rw [← hf, length_filterMap_eq_sum f, ← hw]

/-- Witness for C4 (amended) at a concrete input: on `tTwo` the sum of the
`n` column equals the number of non-missing measurements of valid rows. -/
theorem process_data_sum_n_witness :
    (rTwo.rows.map AggRow.n).sum =
      (measureVals tTwo.header "M"
        (tTwo.rows.filter (fun dr => validKey (keyOf tTwo.header ["K"] dr)))).length :=
  process_data_sum_n tTwo ["K"] "M" rTwo (by decide)

/-! ### The matched-pair claims -/

/-- One-row table whose day column is `Metadata_Day`. -/
def tDayCase : Table :=
  { header := ["Metadata_Day", "Count"], rows := [[Value.int 1, Value.int 10]] }

/-- Claim C5 (code bug): line 71 groups the filtered frame by the requested
name `day_col` instead of the resolved `day_actual`.  When the day request
resolves only case-insensitively, both names resolve and the filter keeps
rows, yet grouping raises `KeyError(day_col)` — caught, printed and
re-raised by lines 75-77 — instead of aggregating by the resolved column
as the specification states. -/
theorem matched_pair_groupby_requested_name_bug :
    find_column tDayCase.header "metadata_day" = some "Metadata_Day" ∧
    find_column tDayCase.header "Metadata_Day" = some "Metadata_Day" ∧
    mpFiltered tDayCase "Metadata_Day" "Metadata_Day" = tDayCase.rows ∧
    process_matching_day_condition tDayCase "metadata_day" "Metadata_Day" "Count" =
      MPOutcome.raised (AggErr.keyErr "metadata_day") := by decide

/-- The table of the spec's matched-pair example: `Day = [1, 1, 2]`,
`Condition = ["1", "2", "2"]`, `Count = [10, 20, 30]`. -/
def tDayCond : Table :=
  { header := ["Day", "Condition", "Count"],
    rows := [[Value.int 1, Value.str "1", Value.int 10],
             [Value.int 1, Value.str "2", Value.int 20],
             [Value.int 2, Value.str "2", Value.int 30]] }

/-- Counterexample for C6: the filter does not keep only the third row —
the string coercion `astype(str)` makes the first row survive as well
(`str(1) = "1"`), so two rows survive. -/
theorem matched_pair_example_cex :
    mpFiltered tDayCond "Day" "Condition" ≠ [[Value.int 2, Value.str "2", Value.int 30]] ∧
    (mpFiltered tDayCond "Day" "Condition").length = 2 ∧
    mpFiltered tDayCond "Day" "Condition" =
      [[Value.int 1, Value.str "1", Value.int 10],
       [Value.int 2, Value.str "2", Value.int 30]] := by decide

/-- Claim C6 (amended): on the example table the equality filter keeps the
first and the third rows (string coercion equates integer `1` with string
`"1"`), and the result holds two aggregate rows: `Day = 1` with `n = 1`,
`mean = 10`, and `Day = 2` with `n = 1`, `mean = 30`, each with `std` and
`sem` missing. -/
theorem matched_pair_example :
    process_matching_day_condition tDayCond "Day" "Condition" "Count" =
      MPOutcome.returned []
        { header := ["Day", "Count_mean", "Count_n", "Count_std", "Count_sem"],
          rows := [{ key := [Value.num 1], n := 1, mean := some 10,
                     stdSq := none, semSq := none },
                   { key := [Value.num 2], n := 1, mean := some 30,
                     stdSq := none, semSq := none }] } := by decide

/-- Claim C7: the two recoverable failures of the matched-pair path — a
request that does not resolve, and an equality filter that leaves no rows —
print their diagnostic (the first one listing the available columns) and
return an empty result table; neither raises. -/
theorem matched_pair_recoverable_failures (t : Table) (dayCol condCol measure : String) :
    ((find_column t.header dayCol = none ∨ find_column t.header condCol = none) →
      process_matching_day_condition t dayCol condCol measure =
        MPOutcome.returned [MPMsg.couldNotFind t.header] emptyResult) ∧
    (∀ dayActual condActual, find_column t.header dayCol = some dayActual →
      find_column t.header condCol = some condActual →
      mpFiltered t dayActual condActual = [] →
      process_matching_day_condition t dayCol condCol measure =
        MPOutcome.returned [MPMsg.noRows dayCol condCol] emptyResult) := by
  constructor
  · intro h
    unfold process_matching_day_condition
    cases hd : find_column t.header dayCol with
    | none => rfl
    | some d =>
      cases hc : find_column t.header condCol with
      | none => rfl
      | some c =>
        rcases h with h | h
        · rw [hd] at h; cases h
        · rw [hc] at h; cases h
  · intro da ca hda hca hfil
    unfold process_matching_day_condition
    rw [hda, hca]
    simp only [hfil, List.isEmpty_nil, if_pos]

/-- One-row table with a single short column name, far from any request. -/
def tAB : Table := { header := ["AB", "M"], rows := [[Value.int 1, Value.int 10]] }

/-- Witness for C7 at a concrete input: the resolution-failure branch on a
request no stage can resolve. -/
theorem matched_pair_recoverable_failures_witness :
    process_matching_day_condition tAB "Q" "QQ" "M" =
      MPOutcome.returned [MPMsg.couldNotFind ["AB", "M"]] emptyResult :=
  (matched_pair_recoverable_failures tAB "Q" "QQ" "M").1 (Or.inl (by decide))

/-- Claim C8: the two aggregation paths have asymmetric failure policies —
any processing error in the grouping path turns into a printed message and
`sys.exit(1)`, while an internal error of the matched-pair aggregation
(after both names resolved and the filter kept rows) is printed and
re-raised to the caller, never downgraded to an empty result table. -/
theorem failure_policy_asymmetry (t : Table) (cols : List String)
    (dayCol condCol measure : String) (e : AggErr) :
    (process_data t cols measure = .error e →
      process_data_run t cols measure = RunOutcome.exit1 e) ∧
    (∀ dayActual condActual, find_column t.header dayCol = some dayActual →
      find_column t.header condCol = some condActual →
      mpFiltered t dayActual condActual ≠ [] →
      aggCheck t.header t.rows [dayCol] measure = some e →
      process_matching_day_condition t dayCol condCol measure = MPOutcome.raised e) := by
  constructor
  · intro h
    unfold process_data_run
    rw [h]
  · intro da ca hda hca hfil hchk
    unfold process_matching_day_condition
    rw [hda, hca]
    have hne : (mpFiltered t da ca).isEmpty = false := by
      cases hv : mpFiltered t da ca with
      | nil => exact absurd hv hfil
      | cons a l => rfl
    simp only [hne, Bool.false_eq_true, if_neg, not_false_iff, hchk]

/-- Witness for C8 at concrete inputs: a missing group column makes the
grouping path exit with status 1, and a missing measurement column makes
the matched-pair path re-raise. -/
theorem failure_policy_asymmetry_witness :
    process_data_run tAB ["Nope"] "M" = RunOutcome.exit1 (AggErr.keyErr "Nope") ∧
    process_matching_day_condition tAB "AB" "AB" "Missing" =
      MPOutcome.raised (AggErr.keyErr "Missing") :=
  ⟨(failure_policy_asymmetry tAB ["Nope"] "AB" "AB" "M" (AggErr.keyErr "Nope")).1 (by decide),
   (failure_policy_asymmetry tAB [] "AB" "AB" "Missing" (AggErr.keyErr "Missing")).2
     "AB" "AB" (by decide) (by decide) (by decide) (by decide)⟩

/-- Counterexample for C9: the resolution-failure branch of the
matched-pair path returns, without any fatal error, the columnless frame
`pd.DataFrame()` — its header is empty, not the group key followed by the
four statistic columns. -/
theorem result_header_cex :
    process_matching_day_condition tAB "X" "Y" "M" =
      MPOutcome.returned [MPMsg.couldNotFind ["AB", "M"]] { header := [], rows := [] } ∧
    ([] : List String) ≠ "X" :: statHeader "M" := by decide

/-- Claim C9 (amended): the grouping path always produces the correct
header — the group-key columns followed by `<measure>_mean`, `<measure>_n`,
`<measure>_std`, `<measure>_sem` — including on empty input, with every row
carrying one key value per group column, and a successful matched-pair run
produces the day column followed by the same four; but the two recoverable
failures of the matched-pair path return the columnless empty frame with
no header at all. -/
theorem result_header_shape (t : Table) (cols : List String)
    (dayCol condCol measure : String) :
    (∀ r, process_data t cols measure = .ok r →
      r.header = cols ++ statHeader measure ∧
      ∀ row ∈ r.rows, row.key.length = cols.length) ∧
    (∀ r, process_matching_day_condition t dayCol condCol measure =
        MPOutcome.returned [] r → r.header = dayCol :: statHeader measure) ∧
    (∀ msgs r, process_matching_day_condition t dayCol condCol measure =
        MPOutcome.returned msgs r → msgs ≠ [] → r = emptyResult) := by
  refine ⟨?_, ?_, ?_⟩
  · intro r hok
    obtain ⟨hchk, hr⟩ := process_data_ok hok
    subst hr
    refine ⟨rfl, ?_⟩
    intro row hrow
    have hkmem : row.key ∈ (aggCompute t.header t.rows cols measure).rows.map AggRow.key :=
      List.mem_map.mpr ⟨row, hrow, rfl⟩
    rw [aggCompute_keys] at hkmem
    obtain ⟨_, dr, _, hkeq⟩ := mem_groupKeys.mp hkmem
    rw [← hkeq]
    unfold keyOf
    rw [List.length_map]
  · intro r hret
    unfold process_matching_day_condition at hret
    cases hd : find_column t.header dayCol with
    | none => rw [hd] at hret; cases hret
    | some da =>
      cases hc : find_column t.header condCol with
      | none => rw [hd, hc] at hret; cases hret
      | some ca =>
        rw [hd, hc] at hret
        dsimp only at hret
        by_cases hemp : (mpFiltered t da ca).isEmpty
        · rw [if_pos hemp] at hret; cases hret
        · rw [if_neg hemp] at hret
          cases hchk : aggCheck t.header t.rows [dayCol] measure with
          | some e => rw [hchk] at hret; cases hret
          | none =>
            rw [hchk] at hret
            cases hret
            rfl
  · intro msgs r hret hmsgs
    unfold process_matching_day_condition at hret
    cases hd : find_column t.header dayCol with
    | none => rw [hd] at hret; cases hret; rfl
    | some da =>
      cases hc : find_column t.header condCol with
      | none => rw [hd, hc] at hret; cases hret; rfl
      | some ca =>
        rw [hd, hc] at hret
        dsimp only at hret
        by_cases hemp : (mpFiltered t da ca).isEmpty
        · rw [if_pos hemp] at hret; cases hret; rfl
        · rw [if_neg hemp] at hret
          cases hchk : aggCheck t.header t.rows [dayCol] measure with
          | some e => rw [hchk] at hret; cases hret
          | none =>
            rw [hchk] at hret
            cases hret
            exact absurd rfl hmsgs

/-- Witness for C9 (amended) at a concrete input: the header of the
grouping-path result for `tTwo`. -/
theorem result_header_shape_witness :
    rTwo.header = ["K"] ++ statHeader "M" :=
  ((result_header_shape tTwo ["K"] "d" "c" "M").1 rTwo (by decide)).1

/-- One-row table whose day column is `Day`. -/
def tDayOnly : Table := { header := ["Day", "Count"], rows := [[Value.int 1, Value.int 10]] }

/-- Counterexample for C10: both requests resolve (case-insensitively) to
the same column `Day` and the filter keeps every row, but the path then
raises `KeyError("day")` — grouping uses the requested name — instead of
silently degenerating into unfiltered aggregation. -/
theorem same_column_degenerate_cex :
    find_column tDayOnly.header "day" = some "Day" ∧
    find_column tDayOnly.header "DAY" = some "Day" ∧
    mpFiltered tDayOnly "Day" "Day" = tDayOnly.rows ∧
    process_matching_day_condition tDayOnly "day" "DAY" "Count" =
      MPOutcome.raised (AggErr.keyErr "day") := by decide

/-- Claim C10 (amended): when the resolver maps both requested names to the
same actual column, the string-coerced equality filter compares each cell
with itself and keeps every row of the table (missing values included,
since `"nan" = "nan"`); on a nonempty table the path then behaves exactly
as unfiltered grouping-path aggregation by the *requested* day name —
returning that aggregation when it succeeds (in particular whenever the
day request is exactly a column name), and re-raising its error instead of
aggregating when the day request only resolved case-insensitively or
fuzzily. -/
theorem same_column_filter_keeps_all (t : Table) (dayCol condCol measure : String)
    (a : String) (hd : find_column t.header dayCol = some a)
    (hc : find_column t.header condCol = some a) :
    mpFiltered t a a = t.rows ∧
    (t.rows ≠ [] →
      process_matching_day_condition t dayCol condCol measure =
        match process_data t [dayCol] measure with
        | .ok r => MPOutcome.returned [] r
        | .error e => MPOutcome.raised e) := by
  have hfil : mpFiltered t a a = t.rows := by
    unfold mpFiltered
    apply List.filter_eq_self.mpr
    intro r _
    exact beq_self_eq_true _
  refine ⟨hfil, ?_⟩
  intro hne
  unfold process_matching_day_condition process_data
  rw [hd, hc]
  dsimp only
  rw [hfil]
  have hemp : t.rows.isEmpty = false := by
    cases hv : t.rows with
    | nil => exact absurd hv hne
    | cons x l => rfl
  rw [hemp]
  simp only [Bool.false_eq_true, if_neg, not_false_iff]
  cases hchk : aggCheck t.header t.rows [dayCol] measure with
  | some e => rfl
  | none => rfl

/-- Witness for C10 (amended) at a concrete input: both requests exactly
`Day`, so the path returns the unfiltered aggregation of the table. -/
theorem same_column_filter_keeps_all_witness :
    mpFiltered tDayOnly "Day" "Day" = tDayOnly.rows ∧
    process_matching_day_condition tDayOnly "Day" "Day" "Count" =
      match process_data tDayOnly ["Day"] "Count" with
      | .ok r => MPOutcome.returned [] r
      | .error e => MPOutcome.raised e :=
  ⟨(same_column_filter_keeps_all tDayOnly "Day" "Day" "Count" "Day"
      (by decide) (by decide)).1,
   (same_column_filter_keeps_all tDayOnly "Day" "Day" "Count" "Day"
      (by decide) (by decide)).2 (by decide)⟩
